import Mathlib

/-!
Verification of the JSON-tree materialization core of bsky-bot.

The definitions below are a shallow embedding of the functions in
`src/bsky_dl.py`: `sanitize_filename`, `should_filter_key`,
`filter_empty_and_noise`, `modify_media_quality`, `categorize_item_content`,
`get_meaningful_list_name`, `get_filename_for_value` and
`save_json_as_tree`.  JSON values are modelled by the mutual inductive
`Value`/`Entries`/`Items` (Python `dict` preserves insertion order, so a
mapping is an ordered list of key/value pairs).  Python `None` returned by
`filter_empty_and_noise` is modelled by `Option.none`; since the filter
returns the input for scalars and `None` is itself a scalar, the JSON value
`null` filters to `none` exactly as in the source.  Filesystem effects are
modelled by the list of created nodes, each tagged with the `current_depth`
of the recursive call that created it.  Python floats are carried as their
decimal string representation; no claim performs float arithmetic.
-/

mutual
inductive Value where
  | null : Value
  | bool (b : Bool) : Value
  | int (i : Int) : Value
  | float (f : String) : Value
  | str (s : String) : Value
  | obj (es : Entries) : Value
  | arr (its : Items) : Value
  deriving Repr
inductive Entries where
  | nil : Entries
  | cons (k : String) (v : Value) (rest : Entries) : Entries
  deriving Repr
inductive Items where
  | nil : Items
  | cons (v : Value) (rest : Items) : Items
  deriving Repr
end

/-- Build an `Entries` from a Lean list (convenience for concrete inputs). -/
def entriesOfList : List (String × Value) → Entries
  | [] => .nil
  | (k, v) :: rest => .cons k v (entriesOfList rest)

/-- Build an `Items` from a Lean list (convenience for concrete inputs). -/
def itemsOfList : List Value → Items
  | [] => .nil
  | v :: rest => .cons v (itemsOfList rest)

/-- View an `Entries` as a Lean list of key/value pairs. -/
def Entries.toList : Entries → List (String × Value)
  | .nil => []
  | .cons k v rest => (k, v) :: rest.toList

/-- View an `Items` as a Lean list of values. -/
def Items.toList : Items → List Value
  | .nil => []
  | .cons v rest => v :: rest.toList

/-- Number of entries of a mapping (`len` of a Python dict). -/
def Entries.length : Entries → Nat
  | .nil => 0
  | .cons _ _ rest => rest.length + 1

/-- Membership of a key in a mapping (Python `k in d`). -/
def Entries.hasKey (es : Entries) (k : String) : Bool :=
  match es with
  | .nil => false
  | .cons k' _ rest => k' == k || rest.hasKey k

/-- Lookup of a key in a mapping (Python `d[k]`, first occurrence). -/
def Entries.lookup (es : Entries) (k : String) : Option Value :=
  match es with
  | .nil => none
  | .cons k' v rest => if k' == k then some v else rest.lookup k

/- ## Character and string helpers (Python semantics, ASCII) -/

/-- Whitespace characters recognised by Python's `\s` and `str.strip()`
(ASCII range). -/
def isPySpace (c : Char) : Bool :=
  [' ', '\t', '\n', '\x0d', '\x0b', '\x0c'].contains c

/-- Characters replaced by `_` in `sanitize_filename`
(the regex class `[<>:"/\\|?*]`). -/
def isIllegalChar (c : Char) : Bool :=
  c == '<' || c == '>' || c == ':' || c == '\"' || c == '/' || c == '\\' ||
  c == '|' || c == '?' || c == '*'

/-- Characters collapsed by the regex `[_\s]+` in `sanitize_filename`. -/
def isCollapsible (c : Char) : Bool :=
  c == '_' || isPySpace c

/-- Replace every run of collapsible characters by a single underscore
(the substitution `re.sub(r'[_\s]+', '_', s)`); the flag records whether the
previous character was part of a run. -/
def collapseGo (inRun : Bool) : List Char → List Char
  | [] => []
  | c :: cs =>
      if isCollapsible c then
        if inRun then collapseGo true cs else '_' :: collapseGo true cs
      else c :: collapseGo false cs

/-- Characters stripped at both ends by `strip(' .')`. -/
def isStripChar (c : Char) : Bool :=
  c == ' ' || c == '.'

/-- Strip characters satisfying `p` from both ends of a list. -/
def stripBoth (p : Char → Bool) (l : List Char) : List Char :=
  ((l.dropWhile p).reverse.dropWhile p).reverse

/-- Embedding of `sanitize_filename` from `src/bsky_dl.py`: replace
filesystem-illegal characters by `_`, collapse runs of whitespace and
underscores into one `_`, strip spaces and dots at both ends, truncate to
200 characters, and fall back to `"unnamed"` when empty. -/
def sanitize_filename (name : String) : String :=
  let s1 := name.data.map (fun c => if isIllegalChar c then '_' else c)
  let s2 := collapseGo false s1
  let s3 := stripBoth isStripChar s2
  let s4 := s3.take 200
  if s4.isEmpty then "unnamed" else String.mk s4

/- ## Substring search and replacement (Python `in` and `str.replace`) -/

/-- Boolean substring test on character lists (Python `needle in haystack`). -/
def containsL (needle : List Char) : List Char → Bool
  | [] => needle.isEmpty
  | c :: cs => needle.isPrefixOf (c :: cs) || containsL needle cs

/-- Worker for left-to-right non-overlapping replacement: when `skip` is
positive the character belongs to an already-replaced occurrence and is
dropped. -/
def replGo (p r : List Char) : Nat → List Char → List Char
  | _, [] => []
  | 0, c :: cs =>
      if p.isPrefixOf (c :: cs) then r ++ replGo p r (p.length - 1) cs
      else c :: replGo p r 0 cs
  | skip + 1, _ :: cs => replGo p r skip cs

/-- Python `s.replace(p, r)` on character lists (left-to-right,
non-overlapping). -/
def replaceL (p r s : List Char) : List Char :=
  replGo p r 0 s

/-- Embedding of `modify_media_quality` from `src/bsky_dl.py`: for URLs on
the `cdn.bsky.app` host, replace the `feed_fullsize` path segment by
`feed_thumbnail`; every other string is returned unchanged (the
`@jpeg`/`@png` branch of the source is a `pass`). -/
def modify_media_quality (url : String) : String :=
  if url.data.isEmpty then url
  else if containsL "cdn.bsky.app".data url.data then
    if containsL "feed_fullsize".data url.data then
      String.mk (replaceL "feed_fullsize".data "feed_thumbnail".data url.data)
    else url
  else url

/- ## Filter pass -/

/-- Embedding of `should_filter_key` from `src/bsky_dl.py`: the fixed noise
denylist. -/
def should_filter_key (key : String) : Bool :=
  ["py_type", "type", "start", "end", "index", "size", "ref",
   "mime_type", "bookmarked", "pinned", "disabled",
   "byte_start", "byte_end", "activity_subscription", "blocking",
   "blocking_by_list", "muted_by_list", "known_followers",
   "embedding_disabled", "thread_muted", "reply_disabled",
   "labels", "viewer", "verification", "associated", "status",
   "chat", "feedgens", "labeler", "lists", "starter_packs",
   "entities", "threadgate", "feed_context", "req_id"].contains key

/-- Keys whose string values get the media-quality rewrite. -/
def isMediaKey (key : String) : Bool :=
  key == "fullsize" || key == "thumb" || key == "avatar"

/-- Test for a container that is empty
(Python `isinstance(v, (list, dict)) and len(v) == 0`). -/
def isEmptyContainer : Value → Bool
  | .obj .nil => true
  | .arr .nil => true
  | _ => false

/-- Test for a blank string
(Python `isinstance(v, str) and v.strip() == ''`). -/
def isBlankStr : Value → Bool
  | .str s => s.data.all isPySpace
  | _ => false

mutual
/-- Embedding of `filter_empty_and_noise` from `src/bsky_dl.py`.  `none`
models the Python `None` result; since the function returns scalars
unchanged and the JSON value `null` is Python `None`, `null` filters to
`none` (and is therefore dropped by every caller). -/
def filter_empty_and_noise : Value → Option Value
  | .null => none
  | .bool b => some (.bool b)
  | .int i => some (.int i)
  | .float f => some (.float f)
  | .str s => some (.str s)
  | .obj es =>
      match filterEntries es with
      | .nil => none
      | fl => some (.obj fl)
  | .arr its =>
      match filterItems its with
      | .nil => none
      | fi => some (.arr fi)
/-- The per-entry loop of `filter_empty_and_noise` for mappings: drop
denylisted keys, recursively filter values, drop absent, empty-container and
blank-string results, and apply the media rewrite to string values of media
keys. -/
def filterEntries : Entries → Entries
  | .nil => .nil
  | .cons k v rest =>
      if should_filter_key k then filterEntries rest
      else
        match filter_empty_and_noise v with
        | none => filterEntries rest
        | some w =>
            if isEmptyContainer w then filterEntries rest
            else if isBlankStr w then filterEntries rest
            else
              match w with
              | .str s =>
                  if isMediaKey k then
                    .cons k (.str (modify_media_quality s)) (filterEntries rest)
                  else .cons k (.str s) (filterEntries rest)
              | w' => .cons k w' (filterEntries rest)
/-- The per-item loop of `filter_empty_and_noise` for sequences: keep the
non-absent filtered items. -/
def filterItems : Items → Items
  | .nil => .nil
  | .cons v rest =>
      match filter_empty_and_noise v with
      | none => filterItems rest
      | some w => .cons w (filterItems rest)
end

/- ## Python string forms and JSON serialization -/

/-- Decimal digit character. -/
def digitChar (n : Nat) : Char := Char.ofNat (48 + n)

/-- Fuelled most-significant-first decimal digits of a natural number. -/
def natDigitsGo : Nat → Nat → List Char
  | 0, _ => []
  | f + 1, n => if n < 10 then [digitChar n] else natDigitsGo f (n / 10) ++ [digitChar (n % 10)]

/-- Decimal digits of a natural number (Python `str(n)` for `n ≥ 0`). -/
def natDigits (n : Nat) : List Char := natDigitsGo (n + 1) n

/-- Python `str` of an integer. -/
def intRepr : Int → String
  | .ofNat n => String.mk (natDigits n)
  | .negSucc n => String.mk ('-' :: natDigits (n + 1))

/-- Escape of one character inside a Python single-quoted `repr`. -/
def pyEscChar (c : Char) : List Char :=
  let bs : Char := '\\'
  if c == bs then [bs, bs]
  else if c == '\x27' then [bs, '\x27']
  else if c == '\n' then [bs, 'n']
  else if c == '\x0d' then [bs, 'r']
  else if c == '\t' then [bs, 't']
  else [c]

/-- Python `repr` of a string (single-quoted). -/
def pyQuote (s : String) : String :=
  String.mk ('\x27' :: (s.data.map pyEscChar).flatten ++ ['\x27'])

mutual
/-- Python `str`/`repr` of a decoded JSON container (`str(data)` in the
source); used by the categorizer's substring checks and the 500-byte size
check. -/
def pyRepr : Value → String
  | .null => "None"
  | .bool true => "True"
  | .bool false => "False"
  | .int i => intRepr i
  | .float f => f
  | .str s => pyQuote s
  | .obj .nil => "\x7b\x7d"
  | .obj es => "\x7b" ++ pyReprEntries es ++ "\x7d"
  | .arr .nil => "[]"
  | .arr its => "[" ++ pyReprItems its ++ "]"
/-- Comma-separated `repr` of mapping entries. -/
def pyReprEntries : Entries → String
  | .nil => ""
  | .cons k v .nil => pyQuote k ++ ": " ++ pyRepr v
  | .cons k v rest => pyQuote k ++ ": " ++ pyRepr v ++ ", " ++ pyReprEntries rest
/-- Comma-separated `repr` of sequence items. -/
def pyReprItems : Items → String
  | .nil => ""
  | .cons v .nil => pyRepr v
  | .cons v rest => pyRepr v ++ ", " ++ pyReprItems rest
end

/-- Python `str()` of a decoded JSON value. -/
def pyStr : Value → String
  | .null => "None"
  | .bool true => "True"
  | .bool false => "False"
  | .int i => intRepr i
  | .float f => f
  | .str s => s
  | v => pyRepr v

/-- Escape of one character inside a JSON string literal
(`ensure_ascii=False`, so non-ASCII characters stay as they are). -/
def jsonEscChar (c : Char) : List Char :=
  let bs : Char := '\\'
  if c == bs then [bs, bs]
  else if c == '\"' then [bs, '\"']
  else if c == '\n' then [bs, 'n']
  else if c == '\x0d' then [bs, 'r']
  else if c == '\t' then [bs, 't']
  else [c]

/-- JSON string literal. -/
def jsonQuote (s : String) : String :=
  String.mk ('\"' :: (s.data.map jsonEscChar).flatten ++ ['\"'])

mutual
/-- Embedding of `json.dumps(v, ensure_ascii=False, default=str)` with the
default separators. -/
def jsonCompact : Value → String
  | .null => "null"
  | .bool true => "true"
  | .bool false => "false"
  | .int i => intRepr i
  | .float f => f
  | .str s => jsonQuote s
  | .obj .nil => "\x7b\x7d"
  | .obj es => "\x7b" ++ jsonCompactEntries es ++ "\x7d"
  | .arr .nil => "[]"
  | .arr its => "[" ++ jsonCompactItems its ++ "]"
/-- Compact JSON of mapping entries. -/
def jsonCompactEntries : Entries → String
  | .nil => ""
  | .cons k v .nil => jsonQuote k ++ ": " ++ jsonCompact v
  | .cons k v rest => jsonQuote k ++ ": " ++ jsonCompact v ++ ", " ++ jsonCompactEntries rest
/-- Compact JSON of sequence items. -/
def jsonCompactItems : Items → String
  | .nil => ""
  | .cons v .nil => jsonCompact v
  | .cons v rest => jsonCompact v ++ ", " ++ jsonCompactItems rest
end

/-- Indentation padding of `json.dumps(..., indent=2)`. -/
def indentPad (lvl : Nat) : String := String.mk (List.replicate (2 * lvl) ' ')

mutual
/-- Embedding of `json.dumps(v, indent=2, ensure_ascii=False, default=str)`
at nesting level `lvl`. -/
def jsonIndent (lvl : Nat) : Value → String
  | .obj .nil => "\x7b\x7d"
  | .obj es => "\x7b\n" ++ jsonIndentEntries (lvl + 1) es ++ "\n" ++ indentPad lvl ++ "\x7d"
  | .arr .nil => "[]"
  | .arr its => "[\n" ++ jsonIndentItems (lvl + 1) its ++ "\n" ++ indentPad lvl ++ "]"
  | v => jsonCompact v
/-- Indented JSON of mapping entries. -/
def jsonIndentEntries (lvl : Nat) : Entries → String
  | .nil => ""
  | .cons k v .nil => indentPad lvl ++ jsonQuote k ++ ": " ++ jsonIndent lvl v
  | .cons k v rest =>
      indentPad lvl ++ jsonQuote k ++ ": " ++ jsonIndent lvl v ++ ",\n" ++ jsonIndentEntries lvl rest
/-- Indented JSON of sequence items. -/
def jsonIndentItems (lvl : Nat) : Items → String
  | .nil => ""
  | .cons v .nil => indentPad lvl ++ jsonIndent lvl v
  | .cons v rest => indentPad lvl ++ jsonIndent lvl v ++ ",\n" ++ jsonIndentItems lvl rest
end

/- ## Categorizer and naming policy -/

/-- Embedding of `categorize_item_content` from `src/bsky_dl.py`: the
ordered rule table assigning a mapping to a semantic bucket; the
`fullsize`/`thumb` rules are substring checks on the Python `str()` form of
the whole mapping. -/
def categorize_item_content (v : Value) : String :=
  match v with
  | .obj es =>
      if es.hasKey "text" && es.hasKey "author" then "posts"
      else if (match es.lookup "post" with | some (.obj _) => true | _ => false) then "posts"
      else if es.hasKey "handle" || es.hasKey "did" || es.hasKey "display_name" then "profiles"
      else if containsL "fullsize".data (pyRepr v).data || containsL "thumb".data (pyRepr v).data
              || es.hasKey "images" then "media"
      else if es.hasKey "external" || es.hasKey "embed" then "embeds"
      else if es.hasKey "reply" || es.hasKey "parent" || es.hasKey "root" then "threads"
      else if es.hasKey "reason" || es.hasKey "by" then "interactions"
      else "content"
  | _ => "content"

/-- Python truthiness of a decoded JSON value (`if item[key]:`). -/
def truthy : Value → Bool
  | .null => false
  | .bool b => b
  | .int i => i != 0
  | .float f => !(f == "0.0" || f == "-0.0" || f == "0")
  | .str s => !s.data.isEmpty
  | .obj .nil => false
  | .obj _ => true
  | .arr .nil => false
  | .arr _ => true

/-- Zero-padded four-digit index (`"%04d" % n`, wider when `n ≥ 10000`). -/
def pad4 (n : Nat) : String :=
  let ds := natDigits n
  String.mk (List.replicate (4 - ds.length) '0' ++ ds)

/-- Characters after the last occurrence of `sep`
(Python `value.split(sep)[-1]`, under the guard that `sep` occurs). -/
def afterLastSep (sep : Char) (l : List Char) : List Char :=
  (l.reverse.takeWhile (fun c => c != sep)).reverse

/-- First key of `keys` present in the mapping with a truthy value, with
that value (the `if key in item and item[key]:` search loops). -/
def findTruthyKey : List String → Entries → Option (String × Value)
  | [], _ => none
  | k :: ks, es =>
      match es.lookup k with
      | some v => if truthy v then some (k, v) else findTruthyKey ks es
      | none => findTruthyKey ks es

/-- The post-text snippet of `get_meaningful_list_name`: first 30
characters of `post["record"]["text"]`, newlines replaced by spaces and the
result stripped; `none` when `record` is not a mapping containing `text` or
the snippet is empty.  (When `record` is a string that merely contains the
substring `text`, the Python source would raise a `TypeError` at the
subscript; that unreachable-by-design path is modelled as `none`.) -/
def recordTextSnippet (pd : Entries) : Option String :=
  match pd.lookup "record" with
  | some (.obj res) =>
      match res.lookup "text" with
      | some tv =>
          let snip := stripBoth isPySpace
            (((pyStr tv).data.take 30).map (fun c => if c == '\n' then ' ' else c))
          if snip.isEmpty then none else some (String.mk snip)
      | none => none
  | _ => none

/-- The post-author handle of `get_meaningful_list_name`, sanitized;
`none` when `author` is not a mapping containing `handle`. -/
def authorHandle (pd : Entries) : Option String :=
  match pd.lookup "author" with
  | some (.obj aes) =>
      match aes.lookup "handle" with
      | some hv => some (sanitize_filename (pyStr hv))
      | none => none
  | _ => none

/-- Embedding of `get_meaningful_list_name` from `src/bsky_dl.py`: a
zero-padded index prefix, then — for mappings — a category tag and an
identifying field found by the category-specific and generic searches;
`"<index>_item"` when nothing identifies the item. -/
def get_meaningful_list_name (item : Value) (index : Nat) : String :=
  match item with
  | .obj es =>
      let category := categorize_item_content item
      let pre := pad4 index ++ "_"
      let generic : Option String :=
        match findTruthyKey ["handle", "did", "uri", "title", "name", "display_name"] es with
        | some (k, v) =>
            let value := pyStr v
            let value :=
              if k == "uri" && containsL ['/'] value.data then
                String.mk ((afterLastSep '/' value.data).take 20)
              else if k == "did" && containsL [':'] value.data then
                String.mk ((afterLastSep ':' value.data).take 15)
              else value
            some (pre ++ category ++ "_" ++ sanitize_filename value)
        | none => none
      let result : Option String :=
        if category == "posts" then
          match es.lookup "post" with
          | some (.obj pd) =>
              match recordTextSnippet pd with
              | some snip => some (pre ++ category ++ "_" ++ sanitize_filename snip)
              | none =>
                  match authorHandle pd with
                  | some h => some (pre ++ category ++ "_" ++ h)
                  | none => generic
          | _ => generic
        else if category == "profiles" then
          match findTruthyKey ["handle", "display_name"] es with
          | some (_, v) => some (pre ++ category ++ "_" ++ sanitize_filename (pyStr v))
          | none => generic
        else generic
      match result with
      | some s => s
      | none => pad4 index ++ "_item"
  | _ => pad4 index ++ "_item"

/-- Embedding of `get_filename_for_value` from `src/bsky_dl.py`: sanitized
base name (or `"data"` for an absent key) plus the type-revealing extension
chosen by the ordered dispatch. -/
def get_filename_for_value (key : String) (value : Value) : String :=
  let base := if key.data.isEmpty then "data" else sanitize_filename key
  match value with
  | .null => base ++ ".null"
  | .bool _ => base ++ ".bool"
  | .int _ => base ++ ".int"
  | .float _ => base ++ ".float"
  | .str s =>
      if "http://".data.isPrefixOf s.data || "https://".data.isPrefixOf s.data then
        base ++ ".url"
      else if "at://".data.isPrefixOf s.data then base ++ ".at_uri"
      else if s.data.contains '@' && s.data.contains '.' then base ++ ".handle"
      else if "did:".data.isPrefixOf s.data then base ++ ".did"
      else if s.data.length > 100 then base ++ ".text"
      else base ++ ".str"
  | _ => base ++ ".txt"

/- ## Tree materializer -/

/-- A filesystem node created by `save_json_as_tree`: a directory or a file
with raw content; paths are lists of segments below the invocation root. -/
inductive ONode where
  | dir (path : List String) : ONode
  | file (path : List String) (content : String) : ONode
  deriving Repr, DecidableEq

/-- Path of a node. -/
def ONode.path : ONode → List String
  | .dir p => p
  | .file p _ => p

/-- Whether a node is a file. -/
def ONode.isFile : ONode → Bool
  | .dir _ => false
  | .file _ _ => true

/-- Content of the file written by the primitive branch of
`save_json_as_tree` (lines 327-334 of the source): `"null"`, `"true"`,
`"false"`, or the natural string form. -/
def primContent : Value → String
  | .null => "null"
  | .bool true => "true"
  | .bool false => "false"
  | .int i => intRepr i
  | .float f => f
  | .str s => s
  | v => pyStr v

/-- Container test (`isinstance(value, (dict, list))`). -/
def isContainer : Value → Bool
  | .obj _ => true
  | .arr _ => true
  | _ => false

/-- Python `parent_key or default` (`None` and the empty string both fall
back). -/
def defaultKey : Option String → String → String
  | none, dflt => dflt
  | some s, dflt => if s.data.isEmpty then dflt else s

/-- Append a key/value pair to its category's bucket, keeping first-seen
category order (insertion into the `categorized_content` dict). -/
def addCat (cats : List (String × List (String × Value))) (cat : String)
    (kv : String × Value) : List (String × List (String × Value)) :=
  match cats with
  | [] => [(cat, [kv])]
  | (c, l) :: rest =>
      if c == cat then (c, l ++ [kv]) :: rest else (c, l) :: addCat rest cat kv

/-- The category-grouping loop of `save_json_as_tree` for `data`-mappings:
split the entries into category buckets (mapping values with a category
other than `content`) and the uncategorized rest, both in iteration order. -/
def groupCatsGo (acc : List (String × List (String × Value)) × List (String × Value)) :
    List (String × Value) → List (String × List (String × Value)) × List (String × Value)
  | [] => acc
  | (k, v) :: rest =>
      match v with
      | .obj es =>
          let cat := categorize_item_content (.obj es)
          if cat == "content" then groupCatsGo (acc.1, acc.2 ++ [(k, v)]) rest
          else groupCatsGo (addCat acc.1 cat (k, v), acc.2) rest
      | _ => groupCatsGo (acc.1, acc.2 ++ [(k, v)]) rest

/-- Entry point of the grouping loop. -/
def groupCats (l : List (String × Value)) :
    List (String × List (String × Value)) × List (String × Value) :=
  groupCatsGo ([], []) l

/-- The file written for one key of a mapping that reached the depth bound
(lines 255-266 of the source): large containers become an indented `.json`
file, everything else a typed leaf file whose content is compact JSON for
containers and the Python string form otherwise. -/
def fileAtMaxDepth (basePath : List String) (k : String) (v : Value) : ONode :=
  if isContainer v && (pyRepr v).data.length > 500 then
    .file (basePath ++ [sanitize_filename k ++ ".json"]) (jsonIndent 0 v)
  else
    .file (basePath ++ [get_filename_for_value k v])
      (if isContainer v then jsonCompact v else pyStr v)

/-- Fuelled embedding of `save_json_as_tree` from `src/bsky_dl.py`.  The
result lists the created filesystem nodes in creation order, each paired
with the `current_depth` of the recursive call that created it.  Every
recursive call of the source increments `current_depth` and only runs when
`current_depth < max_depth`, so fuel `d - c + 1` is always sufficient; the
fuel-0 case is unreachable from the `save_json_as_tree` wrapper below. -/
def matNodesF : Nat → Value → List String → Nat → Nat → Option String → List (Nat × ONode)
  | 0, _, _, _, _, _ => []
  | fuel + 1, data, basePath, c, d, parentKey =>
      match filter_empty_and_noise data with
      | none => []
      | some fd =>
          (c, ONode.dir basePath) ::
          (match fd with
          | .obj es =>
              if d ≤ c then
                es.toList.map (fun kv => (c, fileAtMaxDepth basePath kv.1 kv.2))
              else if parentKey == some "data" && es.length > 3 then
                let parts := groupCats es.toList
                (parts.1.map (fun ce =>
                  matNodesF fuel (.obj (entriesOfList ce.2)) (basePath ++ [ce.1])
                    (c + 1) d (some ce.1))).flatten
                ++ (parts.2.map (fun kv =>
                  matNodesF fuel kv.2 (basePath ++ [sanitize_filename kv.1])
                    (c + 1) d (some kv.1))).flatten
              else
                (es.toList.map (fun kv =>
                  matNodesF fuel kv.2 (basePath ++ [sanitize_filename kv.1])
                    (c + 1) d (some kv.1))).flatten
          | .arr its =>
              if d ≤ c then
                [(c, ONode.file
                  (basePath ++ [sanitize_filename (defaultKey parentKey "list") ++ "_chunk.json"])
                  (jsonIndent 0 (.arr its)))]
              else
                (its.toList.enum.map (fun iv =>
                  matNodesF fuel iv.2 (basePath ++ [get_meaningful_list_name iv.2 iv.1])
                    (c + 1) d (some ("item_" ++ String.mk (natDigits iv.1))))).flatten
          | scalar =>
              [(c, ONode.file
                (basePath ++ [get_filename_for_value (defaultKey parentKey "value") scalar])
                (primContent scalar))])

/-- Embedding of `save_json_as_tree` from `src/bsky_dl.py`, with the fuel
fixed at its sufficient value. -/
def save_json_as_tree (data : Value) (basePath : List String) (c d : Nat)
    (parentKey : Option String) : List (Nat × ONode) :=
  matNodesF (d - c + 1) data basePath c d parentKey

/- ## Concrete inputs used by the claims -/

/-- Sample scenario 1 of the spec. -/
def scen1 : Value := .obj (entriesOfList
  [("handle", .str "alice.test"), ("did", .str "did:plc:abc"),
   ("followers_count", .int 10)])

/-- Sample scenario 2 of the spec. -/
def scen2 : Value := .obj (entriesOfList
  [("posts", .arr (itemsOfList [
    .obj (entriesOfList [("text", .str "hi"),
      ("author", .obj (entriesOfList [("handle", .str "a.b")]))])]))])

/-- The single list item of sample scenario 2. -/
def scen2item : Value := .obj (entriesOfList [("text", .str "hi"),
  ("author", .obj (entriesOfList [("handle", .str "a.b")]))])

/-- A mapping nested below another mapping, for the depth-bound claim. -/
def exNested : Value := .obj (entriesOfList
  [("a", .obj (entriesOfList [("b", .str "x")]))])

/-- Two distinct sibling keys that sanitize to the same segment. -/
def exCollide : Value := .obj (entriesOfList [("a/b", .int 1), ("a|b", .int 2)])

/-- A full-size media URL on the rewritten CDN host. -/
def hqUrl : String := "https://cdn.bsky.app/img/feed_fullsize/plain/abc@jpeg"

/-- The rewritten (thumbnail-quality) form of `hqUrl`. -/
def lqUrl : String := "https://cdn.bsky.app/img/feed_thumbnail/plain/abc@jpeg"

/-- A `data` mapping with four categorizable sub-mappings, for the
grouping claim. -/
def exData : Value := .obj (entriesOfList [("data", .obj (entriesOfList [
  ("k1", .obj (entriesOfList [("handle", .str "h1")])),
  ("k2", .obj (entriesOfList [("handle", .str "h2")])),
  ("k3", .obj (entriesOfList [("handle", .str "h3")])),
  ("k4", .obj (entriesOfList [("handle", .str "h4")]))]))])

/- ## Claim C7: the media-quality switch -/

/-- Claim C7 (code_bug evidence): `filter_empty_and_noise` has no
media-quality parameter at all — the CLI's `--high-quality` switch is parsed
but never reaches it — so the rewrite fires unconditionally: filtering a
mapping with a `fullsize` URL on the CDN host rewrites `feed_fullsize` to
`feed_thumbnail`, and the output string differs from the input. -/
theorem claim_C7 :
    filter_empty_and_noise (.obj (.cons "fullsize" (.str hqUrl) .nil)) =
      some (.obj (.cons "fullsize" (.str lqUrl) .nil)) ∧ lqUrl ≠ hqUrl := by
  constructor
  · rfl
  · decide

/- ## Claim C10: non-mapping list items get the generic name -/

/-- Mapping test (`isinstance(item, dict)`). -/
def isMapping : Value → Bool
  | .obj _ => true
  | _ => false

/-- Claim C10: for every list item that is not a mapping,
`get_meaningful_list_name` returns exactly the zero-padded generic name
`"%04d_item"`; categories and identifying fields are consulted only for
mappings. -/
theorem claim_C10 (v : Value) (i : Nat) (h : isMapping v = false) :
    get_meaningful_list_name v i = pad4 i ++ "_item" := by
  cases v <;> first
    | rfl
    | exact absurd h (by simp [isMapping])

/-- Witness for claim C10 at a concrete non-mapping item. -/
theorem claim_C10_witness :
    get_meaningful_list_name (.int 5) 3 = pad4 3 ++ "_item" :=
  claim_C10 (.int 5) 3 rfl

/- ## Claim C1: scalar materialization -/

/-- Claim C1 counterexample: materializing sample scenario 1 produces no
file named `handle.handle` anywhere (the value `alice.test` contains no `@`,
so the extension dispatch yields `.str`), and no file directly under the
root (the scalar branch writes inside `targetPath`, not at its parent): the
actual node is the file `out/handle/handle.str`. -/
theorem claim_C1_cex :
    ((save_json_as_tree scen1 ["out"] 0 5 none).all
      (fun e => (ONode.path e.2).getLast? != some "handle.handle") = true)
    ∧ ((save_json_as_tree scen1 ["out"] 0 5 none).all
      (fun e => ONode.path e.2 != ["out", "handle.str"]) = true)
    ∧ ((1 : Nat), ONode.file ["out", "handle", "handle.str"] "alice.test") ∈
        save_json_as_tree scen1 ["out"] 0 5 none := by
  refine ⟨rfl, rfl, ?_⟩
  decide

/-- Claim C1 as amended: a non-null scalar reached under parent key `k`
materializes as the directory `targetPath` itself plus exactly one file
written inside `targetPath` (not at its parent), named
`get_filename_for_value k value` and holding the scalar's content string;
for sample scenario 1 this yields subdirectories `handle`, `did`,
`followers_count` holding `handle.str`, `did.did`, `followers_count.int`
with contents `alice.test`, `did:plc:abc`, `10`. -/
theorem claim_C1_thm :
    (∀ (v : Value) (p : List String) (c d : Nat) (k : String),
        isContainer v = false → v ≠ .null → k.data ≠ [] →
        save_json_as_tree v p c d (some k) =
          [(c, ONode.dir p),
           (c, ONode.file (p ++ [get_filename_for_value k v]) (primContent v))])
    ∧ save_json_as_tree scen1 ["out"] 0 5 none =
        [(0, ONode.dir ["out"]),
         (1, ONode.dir ["out", "handle"]),
         (1, ONode.file ["out", "handle", "handle.str"] "alice.test"),
         (1, ONode.dir ["out", "did"]),
         (1, ONode.file ["out", "did", "did.did"] "did:plc:abc"),
         (1, ONode.dir ["out", "followers_count"]),
         (1, ONode.file ["out", "followers_count", "followers_count.int"] "10")] := by
  constructor
  · intro v p c d k hc hn hk
    have hk' : k.data.isEmpty = false := by
      cases hke : k.data
      · exact absurd hke hk
      · rfl
    cases v <;>
      simp_all [save_json_as_tree, matNodesF, filter_empty_and_noise,
        isContainer, defaultKey, hk']
  · rfl

/-- Witness for the amended claim C1 at a concrete scalar. -/
theorem claim_C1_witness :
    save_json_as_tree (.str "alice.test") ["out", "handle"] 1 5 (some "handle") =
      [(1, ONode.dir ["out", "handle"]),
       (1, ONode.file ["out", "handle", "handle.str"] "alice.test")] := by
  have h := claim_C1_thm.1 (.str "alice.test") ["out", "handle"] 1 5 "handle"
    rfl (fun h => Value.noConfusion h) (by decide)
  simpa using h

/- ## Claim C2: the depth bound -/

/-- The file node written for a depth-capped mapping key is a file in both
branches of the size dispatch. -/
theorem fileAtMaxDepth_isFile (b : List String) (k : String) (v : Value) :
    (fileAtMaxDepth b k v).isFile = true := by
  unfold fileAtMaxDepth
  split <;> rfl

/-- Claim C2 counterexample: with `maxDepth = 1`, the nested mapping of
`exNested` is reached by the recursive call at `currentDepth = 1 ≥ maxDepth`,
and that call still creates the directory `out/a` (the source runs
`base_path.mkdir` before the depth test), so a `Directory` node tagged with
depth `1` is created. -/
theorem claim_C2_cex :
    ((1 : Nat), ONode.dir ["out", "a"]) ∈ save_json_as_tree exNested ["out"] 0 1 none := by
  decide

/-- Claim C2 as amended: a call at `currentDepth ≥ maxDepth` creates no
`Directory` other than its own `targetPath` (whose creation the source runs
unconditionally before the depth test): its output is either empty (absent
filtered value) or that single directory followed exclusively by `File`
nodes of the same depth — so containers at the bound still become one
directory, but nothing below it, and no recursion happens. -/
theorem claim_C2_thm (v : Value) (p : List String) (c d : Nat)
    (k : Option String) (h : d ≤ c) :
    save_json_as_tree v p c d k = [] ∨
    ∃ fs, save_json_as_tree v p c d k = (c, ONode.dir p) :: fs ∧
      ∀ e ∈ fs, e.1 = c ∧ ONode.isFile e.2 = true := by
  have h0 : d - c = 0 := Nat.sub_eq_zero_of_le h
  unfold save_json_as_tree
  rw [h0]
  rcases hf : filter_empty_and_noise v with _ | fd
  · left
    simp only [matNodesF, hf]
  · right
    cases fd <;> simp only [matNodesF, hf]
    case obj es =>
      simp only [if_pos h]
      refine ⟨_, rfl, ?_⟩
      intro e he
      simp only [List.mem_map] at he
      obtain ⟨kv, _, rfl⟩ := he
      exact ⟨rfl, fileAtMaxDepth_isFile _ _ _⟩
    case arr its =>
      simp only [if_pos h]
      refine ⟨_, rfl, ?_⟩
      intro e he
      simp only [List.mem_singleton] at he
      subst he
      exact ⟨rfl, rfl⟩
    all_goals
      refine ⟨_, rfl, ?_⟩
      intro e he
      simp only [List.mem_singleton] at he
      subst he
      exact ⟨rfl, rfl⟩

/-- Witness for the amended claim C2: a mapping reached at
`currentDepth = 1 = maxDepth`. -/
theorem claim_C2_witness :
    save_json_as_tree (.obj (.cons "b" (.str "x") .nil)) ["out", "a"] 1 1 (some "a") = [] ∨
    ∃ fs, save_json_as_tree (.obj (.cons "b" (.str "x") .nil)) ["out", "a"] 1 1 (some "a") =
        (1, ONode.dir ["out", "a"]) :: fs ∧
      ∀ e ∈ fs, e.1 = 1 ∧ ONode.isFile e.2 = true :=
  claim_C2_thm (.obj (.cons "b" (.str "x") .nil)) ["out", "a"] 1 1 (some "a") (by decide)

/- ## Claim C5: sample scenario 2 -/

/-- Claim C5 counterexample: the item of sample scenario 2 is categorized
as a post (it has `text` and `author`), but the post-specific name
extraction only looks inside an `item["post"]` sub-mapping and the generic
identifying keys are absent, so the folder name is the generic `0000_item`
— neither `0000_posts_a_b` nor `0000_posts_hi` appears anywhere in the
materialized tree. -/
theorem claim_C5_cex :
    get_meaningful_list_name scen2item 0 = "0000_item"
    ∧ categorize_item_content scen2item = "posts"
    ∧ ((save_json_as_tree scen2 ["out"] 0 5 none).all
        (fun e => !(ONode.path e.2).contains "0000_posts_a_b"
          && !(ONode.path e.2).contains "0000_posts_hi") = true) :=
  ⟨rfl, rfl, rfl⟩

/-- Claim C5 as amended: sample scenario 2 materializes under
`posts/0000_item/` (the item is categorized `posts` but no identifying
field is found, so the generic name is used), and the handle leaf is the
nested file `author/handle/handle.str` with content `a.b` (the value
contains no `@`, so the extension is `.str`, and the scalar file sits
inside its own `handle/` directory). -/
theorem claim_C5_thm :
    save_json_as_tree scen2 ["out"] 0 5 none =
      [(0, ONode.dir ["out"]),
       (1, ONode.dir ["out", "posts"]),
       (2, ONode.dir ["out", "posts", "0000_item"]),
       (3, ONode.dir ["out", "posts", "0000_item", "text"]),
       (3, ONode.file ["out", "posts", "0000_item", "text", "text.str"] "hi"),
       (3, ONode.dir ["out", "posts", "0000_item", "author"]),
       (4, ONode.dir ["out", "posts", "0000_item", "author", "handle"]),
       (4, ONode.file ["out", "posts", "0000_item", "author", "handle", "handle.str"] "a.b")] :=
  rfl

/- ## Properties of substring search and replacement -/

/-- A positive skip count just drops characters. -/
theorem replGo_skip (p r : List Char) :
    ∀ (xs : List Char) (s : Nat), replGo p r s xs = replGo p r 0 (xs.drop s) := by
  intro xs
  induction xs with
  | nil => intro s; cases s <;> rfl
  | cons c cs ih =>
      intro s
      cases s with
      | zero => rfl
      | succ s => simpa [replGo] using ih s

/-- One-step unfolding of `replaceL` on a nonempty list. -/
theorem replaceL_cons (p r : List Char) (c : Char) (cs : List Char) :
    replaceL p r (c :: cs) =
      if p.isPrefixOf (c :: cs) then r ++ replaceL p r (cs.drop (p.length - 1))
      else c :: replaceL p r cs := by
  unfold replaceL
  simp only [replGo]
  rw [replGo_skip]

/-- `containsL` decides the infix relation. -/
theorem containsL_iff (q : List Char) :
    ∀ xs, containsL q xs = true ↔ q <:+: xs := by
  intro xs
  induction xs with
  | nil =>
      simp only [containsL, List.isEmpty_iff]
      constructor
      · intro h; simp [h]
      · intro h; exact List.eq_nil_of_infix_nil h
  | cons c cs ih =>
      simp only [containsL, Bool.or_eq_true, List.isPrefixOf_iff_prefix, ih,
        List.infix_cons_iff]

/-- Replacement is the identity when the pattern does not occur. -/
theorem replaceL_of_not_contains (p r : List Char) :
    ∀ xs, containsL p xs = false → replaceL p r xs = xs := by
  intro xs
  induction xs with
  | nil => intro _; rfl
  | cons c cs ih =>
      intro h
      simp only [containsL, Bool.or_eq_false_iff] at h
      rw [replaceL_cons, if_neg (by simp [h.1]), ih h.2]

/-- Decomposition of a prefix of an appended list. -/
theorem prefix_append_split {α : Type} {q u v : List α} (h : q <+: u ++ v) :
    q <+: u ∨ ∃ q₂, q = u ++ q₂ ∧ q₂ <+: v := by
  induction u generalizing q with
  | nil => exact Or.inr ⟨q, rfl, h⟩
  | cons a u' ih =>
      cases q with
      | nil => exact Or.inl (List.nil_prefix)
      | cons b q' =>
          rw [List.cons_append, List.cons_prefix_cons] at h
          obtain ⟨rfl, h'⟩ := h
          rcases ih h' with h2 | ⟨q₂, rfl, h₂⟩
          · exact Or.inl (List.cons_prefix_cons.mpr ⟨rfl, h2⟩)
          · exact Or.inr ⟨q₂, rfl, h₂⟩

/-- Decomposition of an infix of an appended list: it lies in the left
part, lies in the right part, or spans the boundary with a nonempty suffix
of the left part and a nonempty prefix of the right part. -/
theorem infix_append_split {α : Type} {q u v : List α} (h : q <:+: u ++ v) :
    q <:+: u ∨ q <:+: v ∨
      ∃ q₁ q₂, q = q₁ ++ q₂ ∧ q₁ ≠ [] ∧ q₂ ≠ [] ∧ q₁ <:+ u ∧ q₂ <+: v := by
  induction u generalizing q with
  | nil => exact Or.inr (Or.inl h)
  | cons a u' ih =>
      rw [List.cons_append, List.infix_cons_iff] at h
      rcases h with h | h
      · rcases prefix_append_split (u := a :: u') h with h2 | ⟨q₂, rfl, h₂⟩
        · exact Or.inl h2.isInfix
        · cases q₂ with
          | nil => exact Or.inl (by simp)
          | cons b q₂' =>
              exact Or.inr (Or.inr ⟨a :: u', b :: q₂', rfl, by simp, by simp,
                List.suffix_refl _, h₂⟩)
      · rcases ih h with h2 | h2 | ⟨q₁, q₂, rfl, hq₁, hq₂, hs, hp⟩
        · exact Or.inl (List.infix_cons h2)
        · exact Or.inr (Or.inl h2)
        · exact Or.inr (Or.inr ⟨q₁, q₂, rfl, hq₁, hq₂, hs.trans (List.suffix_cons a u'), hp⟩)

/-- Core lemma for idempotence of the rewrite: when the pattern `p` is
nonempty, no longer than the replacement `r`, does not occur inside `r`, has
no nonempty proper prefix that is a suffix of `r`, and no nonempty proper
suffix that is a prefix of `r`, then `p` does not occur in the replaced
list; jointly, a proper suffix of `p` that is a prefix of the replaced list
is already a prefix of the original. -/
theorem replace_no_occurrence (p r : List Char) (hp : p ≠ [])
    (hlen : p.length ≤ r.length) (hpr : ¬ p <:+: r)
    (h3 : ∀ a, a <+: p → a ≠ [] → a ≠ p → ¬ a <:+ r)
    (h4 : ∀ q, q <:+ p → q ≠ p → q ≠ [] → ¬ q <+: r) :
    ∀ (N : Nat) (xs : List Char), xs.length ≤ N →
      (¬ p <:+: replaceL p r xs) ∧
      (∀ q, q <:+ p → q ≠ p → q <+: replaceL p r xs → q <+: xs) := by
  intro N
  induction N with
  | zero =>
      intro xs hxs
      have hx : xs = [] := by
        cases xs with
        | nil => rfl
        | cons c cs => simp at hxs
      subst hx
      constructor
      · intro h
        exact hp (List.eq_nil_of_infix_nil h)
      · intro q _ _ hq
        exact hq
  | succ N ih =>
      intro xs hxs
      cases xs with
      | nil =>
          constructor
          · intro h
            exact hp (List.eq_nil_of_infix_nil h)
          · intro q _ _ hq
            exact hq
      | cons c cs =>
          simp only [List.length_cons, Nat.succ_le_succ_iff] at hxs
          by_cases hpre : p.isPrefixOf (c :: cs)
          · -- an occurrence is replaced here
            have hrest : (cs.drop (p.length - 1)).length ≤ N :=
              le_trans (by simpa using List.length_drop_le _ _) hxs
            have ihrest := ih (cs.drop (p.length - 1)) hrest
            rw [replaceL_cons, if_pos hpre]
            constructor
            · intro hocc
              rcases infix_append_split hocc with h | h | ⟨q₁, q₂, hq, hq₁, hq₂, hs, hpfx⟩
              · exact hpr h
              · exact ihrest.1 h
              · exact h3 q₁ ⟨q₂, hq.symm⟩ hq₁
                  (fun he => hq₂ (by simpa [he] using hq)) hs
            · intro q hqs hqp hqpre
              have hqlen : q.length < p.length :=
                lt_of_le_of_ne hqs.length_le (fun he => hqp (hqs.eq_of_length he))
              rcases prefix_append_split hqpre with h | ⟨q₂, rfl, _⟩
              · have hq0 : q = [] := by
                  by_contra hne
                  exact h4 q hqs hqp hne h
                subst hq0
                exact List.nil_prefix
              · exfalso
                have : r.length ≤ r.length + q₂.length := Nat.le_add_right _ _
                simp only [List.length_append] at hqlen
                omega
          · -- no occurrence starts here
            have ihcs := ih cs hxs
            rw [replaceL_cons, if_neg hpre]
            constructor
            · intro hocc
              rw [List.infix_cons_iff] at hocc
              rcases hocc with hocc | hocc
              · cases p with
                | nil => exact hp rfl
                | cons b p' =>
                    rw [List.cons_prefix_cons] at hocc
                    obtain ⟨rfl, h'⟩ := hocc
                    have hsuf : p' <:+ b :: p' := List.suffix_cons b p'
                    have hne : p' ≠ b :: p' := by
                      intro he
                      have := congrArg List.length he
                      simp at this
                    have := ihcs.2 p' hsuf hne h'
                    exact hpre (List.isPrefixOf_iff_prefix.mpr
                      (List.cons_prefix_cons.mpr ⟨rfl, this⟩))
              · exact ihcs.1 hocc
            · intro q hqs hqp hqpre
              cases q with
              | nil => exact List.nil_prefix
              | cons b q' =>
                  rw [List.cons_prefix_cons] at hqpre
                  obtain ⟨rfl, h'⟩ := hqpre
                  have hsuf : q' <:+ p := ((List.suffix_cons b q').trans hqs)
                  have hne : q' ≠ p := by
                    intro he
                    have h1 := hqs.length_le
                    simp [he] at h1
                  exact List.cons_prefix_cons.mpr ⟨rfl, ihcs.2 q' hsuf hne h'⟩

/- ## Idempotence and non-blankness of the media rewrite -/

/-- The pattern of the rewrite does not occur in its replacement. -/
theorem ffl_not_infix : ¬ ("feed_fullsize".data <:+: "feed_thumbnail".data) := by
  decide

/-- No nonempty proper prefix of the pattern is a suffix of the
replacement. -/
theorem ffl_no_prefix_suffix :
    ∀ a, a <+: "feed_fullsize".data → a ≠ [] → a ≠ "feed_fullsize".data →
      ¬ a <:+ "feed_thumbnail".data := by
  have H : ∀ a ∈ List.inits "feed_fullsize".data, a ≠ [] →
      a ≠ "feed_fullsize".data → ¬ a <:+ "feed_thumbnail".data := by decide
  exact fun a ha => H a ((List.mem_inits _ _).mpr ha)

/-- No nonempty proper suffix of the pattern is a prefix of the
replacement. -/
theorem ffl_no_suffix_prefix :
    ∀ q, q <:+ "feed_fullsize".data → q ≠ "feed_fullsize".data → q ≠ [] →
      ¬ q <+: "feed_thumbnail".data := by
  have H : ∀ q ∈ List.tails "feed_fullsize".data, q ≠ "feed_fullsize".data →
      q ≠ [] → ¬ q <+: "feed_thumbnail".data := by decide
  exact fun q hq => H q ((List.mem_tails _ _).mpr hq)

/-- After the rewrite, `feed_fullsize` no longer occurs. -/
theorem replaceL_ffl_no_occurrence (xs : List Char) :
    ¬ ("feed_fullsize".data <:+:
        replaceL "feed_fullsize".data "feed_thumbnail".data xs) :=
  (replace_no_occurrence "feed_fullsize".data "feed_thumbnail".data
    (by decide) (by decide) ffl_not_infix
    (fun a hap hane hanep => ffl_no_prefix_suffix a hap hane hanep)
    (fun q hqs hqnp hqne => ffl_no_suffix_prefix q hqs hqnp hqne)
    xs.length xs le_rfl).1

/-- Embedded `modify_media_quality` is idempotent. -/
theorem modify_media_quality_idem (s : String) :
    modify_media_quality (modify_media_quality s) = modify_media_quality s := by
  by_cases h1 : s.data.isEmpty
  · have hs : modify_media_quality s = s := by simp [modify_media_quality, h1]
    rw [hs]
    exact hs
  · by_cases h2 : containsL "cdn.bsky.app".data s.data
    · by_cases h3 : containsL "feed_fullsize".data s.data
      · have hs : modify_media_quality s =
            String.mk (replaceL "feed_fullsize".data "feed_thumbnail".data s.data) := by
          simp [modify_media_quality, h1, h2, h3]
        rw [hs]
        have hnc : containsL "feed_fullsize".data
            (replaceL "feed_fullsize".data "feed_thumbnail".data s.data) = false := by
          by_contra hc
          rw [Bool.not_eq_false, containsL_iff] at hc
          exact replaceL_ffl_no_occurrence s.data hc
        by_cases h4 : (String.mk (replaceL "feed_fullsize".data "feed_thumbnail".data s.data)).data.isEmpty
        · simp [modify_media_quality, h4]
        · by_cases h5 : containsL "cdn.bsky.app".data
              (String.mk (replaceL "feed_fullsize".data "feed_thumbnail".data s.data)).data
          · simp [modify_media_quality, h4, h5, hnc]
          · simp [modify_media_quality, h4, h5]
      · have hs : modify_media_quality s = s := by
          simp [modify_media_quality, h1, h2, h3]
        rw [hs]
        exact hs
    · have hs : modify_media_quality s = s := by simp [modify_media_quality, h1, h2]
      rw [hs]
      exact hs

/-- A replaced list is either unchanged or contains a full copy of the
replacement. -/
theorem replaceL_id_or_repl (p r : List Char) :
    ∀ xs, replaceL p r xs = xs ∨ ∃ u w, replaceL p r xs = u ++ r ++ w := by
  intro xs
  induction xs with
  | nil => exact Or.inl rfl
  | cons c cs ih =>
      rw [replaceL_cons]
      by_cases h : p.isPrefixOf (c :: cs)
      · right
        exact ⟨[], replaceL p r (List.drop (p.length - 1) cs), by rw [if_pos h]; simp⟩
      · rw [if_neg h]
        rcases ih with h2 | ⟨u, w, h2⟩
        · exact Or.inl (by rw [h2])
        · exact Or.inr ⟨c :: u, w, by simp [h2]⟩

/-- The rewrite never turns a non-blank string blank. -/
theorem modify_media_quality_nonblank (s : String)
    (h : s.data.all isPySpace = false) :
    (modify_media_quality s).data.all isPySpace = false := by
  by_cases h1 : s.data.isEmpty
  · simpa [modify_media_quality, h1] using h
  · by_cases h2 : containsL "cdn.bsky.app".data s.data
    · by_cases h3 : containsL "feed_fullsize".data s.data
      · have hs : modify_media_quality s =
            String.mk (replaceL "feed_fullsize".data "feed_thumbnail".data s.data) := by
          simp [modify_media_quality, h1, h2, h3]
        rw [hs]
        rcases replaceL_id_or_repl "feed_fullsize".data "feed_thumbnail".data s.data with
          h4 | ⟨u, w, h4⟩
        · show (replaceL "feed_fullsize".data "feed_thumbnail".data s.data).all isPySpace = false
          rw [h4]
          exact h
        · show (replaceL "feed_fullsize".data "feed_thumbnail".data s.data).all isPySpace = false
          rw [h4]
          have hft : ("feed_thumbnail".data.all isPySpace) = false := by decide
          simp only [List.all_append]
          rw [hft]
          simp
      · simpa [modify_media_quality, h1, h2, h3] using h
    · simpa [modify_media_quality, h1, h2] using h

/- ## The no-empty-container invariant and filter goodness -/

mutual
/-- No mapping or sequence anywhere in the value is empty. -/
def noEmptyAll : Value → Bool
  | .obj .nil => false
  | .obj es => noEmptyEntries es
  | .arr .nil => false
  | .arr its => noEmptyItems its
  | _ => true
/-- All entry values satisfy `noEmptyAll`. -/
def noEmptyEntries : Entries → Bool
  | .nil => true
  | .cons _ v rest => noEmptyAll v && noEmptyEntries rest
/-- All items satisfy `noEmptyAll`. -/
def noEmptyItems : Items → Bool
  | .nil => true
  | .cons v rest => noEmptyAll v && noEmptyItems rest
end

/-- An entry as produced by `filterEntries`: its key survived the denylist,
its value is a fixed point of the filter, is neither an empty container nor
a blank string, and — under a media key — is a fixed point of the media
rewrite.  Re-filtering keeps such an entry verbatim. -/
def GoodEntry (k : String) (w : Value) : Prop :=
  should_filter_key k = false ∧
  filter_empty_and_noise w = some w ∧
  isEmptyContainer w = false ∧
  isBlankStr w = false ∧
  (∀ s, w = .str s → isMediaKey k = true → modify_media_quality s = s)

/-- All entries of the mapping are good. -/
def GoodEntries (es : Entries) : Prop := ∀ kw ∈ es.toList, GoodEntry kw.1 kw.2

/-- All items are fixed points of the filter. -/
def GoodItems (its : Items) : Prop :=
  ∀ w ∈ its.toList, filter_empty_and_noise w = some w

/-- Re-filtering a list of good entries is the identity. -/
theorem filterEntries_of_good : ∀ es, GoodEntries es → filterEntries es = es
  | .nil, _ => rfl
  | .cons k v rest, hg => by
      obtain ⟨hk, hf, hec, hbl, hms⟩ := hg (k, v) (by simp [Entries.toList])
      have hrest : filterEntries rest = rest :=
        filterEntries_of_good rest (fun kw hkw => hg kw (by simp [Entries.toList, hkw]))
      show filterEntries (.cons k v rest) = .cons k v rest
      rw [show filterEntries (.cons k v rest) =
        (if should_filter_key k then filterEntries rest
        else
          match filter_empty_and_noise v with
          | none => filterEntries rest
          | some w =>
              if isEmptyContainer w then filterEntries rest
              else if isBlankStr w then filterEntries rest
              else
                match w with
                | .str s =>
                    if isMediaKey k then
                      .cons k (.str (modify_media_quality s)) (filterEntries rest)
                    else .cons k (.str s) (filterEntries rest)
                | w' => .cons k w' (filterEntries rest)) from rfl]
      rw [hk, hf, hrest]
      simp only [Bool.false_eq_true, if_false, hec, hbl]
      cases v with
      | str s =>
          by_cases hm : isMediaKey k
          · simp only [hm, if_true, hms s rfl hm]
          · simp [hm]
      | bool b => rfl
      | int i => rfl
      | float f => rfl
      | null => rfl
      | obj es' => rfl
      | arr its' => rfl

/-- Re-filtering a list of good items is the identity. -/
theorem filterItems_of_good : ∀ its, GoodItems its → filterItems its = its
  | .nil, _ => rfl
  | .cons v rest, hg => by
      have hv : filter_empty_and_noise v = some v := hg v (by simp [Items.toList])
      have hrest : filterItems rest = rest :=
        filterItems_of_good rest (fun w hw => hg w (by simp [Items.toList, hw]))
      show filterItems (.cons v rest) = .cons v rest
      rw [show filterItems (.cons v rest) =
        (match filter_empty_and_noise v with
        | none => filterItems rest
        | some w => .cons w (filterItems rest)) from rfl]
      rw [hv, hrest]

/-- Definitional unfolding of `filterEntries` on a cons cell. -/
theorem filterEntries_cons (k : String) (v : Value) (rest : Entries) :
    filterEntries (.cons k v rest) =
      (if should_filter_key k then filterEntries rest
      else
        match filter_empty_and_noise v with
        | none => filterEntries rest
        | some w =>
            if isEmptyContainer w then filterEntries rest
            else if isBlankStr w then filterEntries rest
            else
              match w with
              | .str s =>
                  if isMediaKey k then
                    .cons k (.str (modify_media_quality s)) (filterEntries rest)
                  else .cons k (.str s) (filterEntries rest)
              | w' => .cons k w' (filterEntries rest)) := rfl

/-- Definitional unfolding of `filterItems` on a cons cell. -/
theorem filterItems_cons (v : Value) (rest : Items) :
    filterItems (.cons v rest) =
      (match filter_empty_and_noise v with
      | none => filterItems rest
      | some w => .cons w (filterItems rest)) := rfl

/-- Definitional unfolding of the filter on a mapping. -/
theorem filter_obj_eq (es : Entries) :
    filter_empty_and_noise (.obj es) =
      (match filterEntries es with
      | .nil => none
      | fl => some (.obj fl)) := rfl

/-- Definitional unfolding of the filter on a sequence. -/
theorem filter_arr_eq (its : Items) :
    filter_empty_and_noise (.arr its) =
      (match filterItems its with
      | .nil => none
      | fi => some (.arr fi)) := rfl

/-- Goodness of the filter output, by strong induction on size: every
filtered value satisfies the no-empty invariant and is a fixed point of the
filter; every output entry of `filterEntries` is a `GoodEntry`; every
output item of `filterItems` is a filter fixed point satisfying the
no-empty invariant. -/
theorem filter_good : ∀ n : Nat,
    (∀ v : Value, sizeOf v ≤ n → ∀ w, filter_empty_and_noise v = some w →
      noEmptyAll w = true ∧ filter_empty_and_noise w = some w) ∧
    (∀ es : Entries, sizeOf es ≤ n →
      GoodEntries (filterEntries es) ∧ noEmptyEntries (filterEntries es) = true) ∧
    (∀ its : Items, sizeOf its ≤ n →
      GoodItems (filterItems its) ∧ noEmptyItems (filterItems its) = true ∧
      ∀ w ∈ (filterItems its).toList, noEmptyAll w = true) := by
  intro n
  induction n with
  | zero =>
      refine ⟨?_, ?_, ?_⟩
      · intro v hv
        exfalso
        cases v <;> simp at hv
      · intro es hes
        exfalso
        cases es <;> simp at hes
      · intro its hits
        exfalso
        cases its <;> simp at hits
  | succ n ih =>
      obtain ⟨ihV, ihE, ihI⟩ := ih
      refine ⟨?_, ?_, ?_⟩
      · intro v hv w hf
        cases v with
        | null => exact Option.noConfusion hf
        | bool b =>
            have hw : some (Value.bool b) = some w := hf
            injection hw with hw2
            subst hw2
            exact ⟨rfl, rfl⟩
        | int i =>
            have hw : some (Value.int i) = some w := hf
            injection hw with hw2
            subst hw2
            exact ⟨rfl, rfl⟩
        | float f =>
            have hw : some (Value.float f) = some w := hf
            injection hw with hw2
            subst hw2
            exact ⟨rfl, rfl⟩
        | str s =>
            have hw : some (Value.str s) = some w := hf
            injection hw with hw2
            subst hw2
            exact ⟨rfl, rfl⟩
        | obj es =>
            have hes : sizeOf es ≤ n := by
              simp at hv
              omega
            obtain ⟨hge, hne⟩ := ihE es hes
            rw [filter_obj_eq] at hf
            cases hfe : filterEntries es with
            | nil =>
                rw [hfe] at hf
                exact Option.noConfusion hf
            | cons k0 v0 r0 =>
                rw [hfe] at hf
                have hw : some (Value.obj (.cons k0 v0 r0)) = some w := hf
                injection hw with hw2
                subst hw2
                constructor
                · show noEmptyEntries (.cons k0 v0 r0) = true
                  rw [← hfe]
                  exact hne
                · rw [filter_obj_eq, filterEntries_of_good _ (hfe ▸ hge)]
        | arr its =>
            have hits : sizeOf its ≤ n := by
              simp at hv
              omega
            obtain ⟨hgi, hni, _⟩ := ihI its hits
            rw [filter_arr_eq] at hf
            cases hfi : filterItems its with
            | nil =>
                rw [hfi] at hf
                exact Option.noConfusion hf
            | cons v0 r0 =>
                rw [hfi] at hf
                have hw : some (Value.arr (.cons v0 r0)) = some w := hf
                injection hw with hw2
                subst hw2
                constructor
                · show noEmptyItems (.cons v0 r0) = true
                  rw [← hfi]
                  exact hni
                · rw [filter_arr_eq, filterItems_of_good _ (hfi ▸ hgi)]
      · intro es hes
        cases es with
        | nil =>
            constructor
            · intro kw hkw
              simp [Entries.toList] at hkw
            · rfl
        | cons k v rest =>
            have hv : sizeOf v ≤ n := by
              simp at hes
              omega
            have hr : sizeOf rest ≤ n := by
              simp at hes
              omega
            obtain ⟨ihgr, ihnr⟩ := ihE rest hr
            rw [filterEntries_cons]
            by_cases hk : should_filter_key k
            · rw [if_pos hk]
              exact ⟨ihgr, ihnr⟩
            · rw [if_neg hk]
              have hkf : should_filter_key k = false := by simpa using hk
              cases hfv : filter_empty_and_noise v with
              | none => exact ⟨ihgr, ihnr⟩
              | some w =>
                  dsimp only
                  by_cases hec : isEmptyContainer w
                  · rw [if_pos hec]
                    exact ⟨ihgr, ihnr⟩
                  · rw [if_neg hec]
                    by_cases hbl : isBlankStr w
                    · rw [if_pos hbl]
                      exact ⟨ihgr, ihnr⟩
                    · rw [if_neg hbl]
                      obtain ⟨hnw, hfw⟩ := ihV v hv w hfv
                      have hecf : isEmptyContainer w = false := by simpa using hec
                      have hblf : isBlankStr w = false := by simpa using hbl
                      cases w with
                      | null => exact Option.noConfusion hfw
                      | str s =>
                          dsimp only
                          have hsb : s.data.all isPySpace = false := by
                            simpa [isBlankStr] using hblf
                          by_cases hm : isMediaKey k
                          · rw [if_pos hm]
                            constructor
                            · intro kw hkw
                              rw [show (Entries.cons k (.str (modify_media_quality s))
                                  (filterEntries rest)).toList =
                                  (k, Value.str (modify_media_quality s)) ::
                                    (filterEntries rest).toList from rfl] at hkw
                              rcases List.mem_cons.mp hkw with h0 | h0
                              · subst h0
                                refine ⟨hkf, rfl, rfl, ?_, ?_⟩
                                · show (modify_media_quality s).data.all isPySpace = false
                                  exact modify_media_quality_nonblank s hsb
                                · intro s' hs' _
                                  injection hs' with hs2
                                  rw [← hs2]
                                  exact modify_media_quality_idem s
                              · exact ihgr kw h0
                            · show (noEmptyAll (.str (modify_media_quality s)) &&
                                noEmptyEntries (filterEntries rest)) = true
                              simp [noEmptyAll, ihnr]
                          · rw [if_neg hm]
                            constructor
                            · intro kw hkw
                              rw [show (Entries.cons k (.str s)
                                  (filterEntries rest)).toList =
                                  (k, Value.str s) :: (filterEntries rest).toList from rfl] at hkw
                              rcases List.mem_cons.mp hkw with h0 | h0
                              · subst h0
                                refine ⟨hkf, hfw, rfl, hblf, ?_⟩
                                intro s' _ hmk
                                rw [show isMediaKey k = false from by simpa using hm] at hmk
                                exact Bool.noConfusion hmk
                              · exact ihgr kw h0
                            · show (noEmptyAll (.str s) &&
                                noEmptyEntries (filterEntries rest)) = true
                              simp [noEmptyAll, ihnr]
                      | bool b =>
                          constructor
                          · intro kw hkw
                            rcases List.mem_cons.mp hkw with h0 | h0
                            · subst h0
                              exact ⟨hkf, hfw, hecf, hblf, fun s' hs' _ => Value.noConfusion hs'⟩
                            · exact ihgr kw h0
                          · show (noEmptyAll (.bool b) && noEmptyEntries (filterEntries rest)) = true
                            simp [noEmptyAll, ihnr]
                      | int i =>
                          constructor
                          · intro kw hkw
                            rcases List.mem_cons.mp hkw with h0 | h0
                            · subst h0
                              exact ⟨hkf, hfw, hecf, hblf, fun s' hs' _ => Value.noConfusion hs'⟩
                            · exact ihgr kw h0
                          · show (noEmptyAll (.int i) && noEmptyEntries (filterEntries rest)) = true
                            simp [noEmptyAll, ihnr]
                      | float f =>
                          constructor
                          · intro kw hkw
                            rcases List.mem_cons.mp hkw with h0 | h0
                            · subst h0
                              exact ⟨hkf, hfw, hecf, hblf, fun s' hs' _ => Value.noConfusion hs'⟩
                            · exact ihgr kw h0
                          · show (noEmptyAll (.float f) && noEmptyEntries (filterEntries rest)) = true
                            simp [noEmptyAll, ihnr]
                      | obj es' =>
                          constructor
                          · intro kw hkw
                            rcases List.mem_cons.mp hkw with h0 | h0
                            · subst h0
                              exact ⟨hkf, hfw, hecf, hblf, fun s' hs' _ => Value.noConfusion hs'⟩
                            · exact ihgr kw h0
                          · show (noEmptyAll (.obj es') && noEmptyEntries (filterEntries rest)) = true
                            rw [hnw, ihnr]
                            rfl
                      | arr its' =>
                          constructor
                          · intro kw hkw
                            rcases List.mem_cons.mp hkw with h0 | h0
                            · subst h0
                              exact ⟨hkf, hfw, hecf, hblf, fun s' hs' _ => Value.noConfusion hs'⟩
                            · exact ihgr kw h0
                          · show (noEmptyAll (.arr its') && noEmptyEntries (filterEntries rest)) = true
                            rw [hnw, ihnr]
                            rfl
      · intro its hits
        cases its with
        | nil =>
            refine ⟨?_, rfl, ?_⟩
            · intro w hw
              simp [Items.toList] at hw
            · intro w hw
              simp [Items.toList] at hw
        | cons v rest =>
            have hv : sizeOf v ≤ n := by
              simp at hits
              omega
            have hr : sizeOf rest ≤ n := by
              simp at hits
              omega
            obtain ⟨ihgr, ihnr, ihmr⟩ := ihI rest hr
            rw [filterItems_cons]
            cases hfv : filter_empty_and_noise v with
            | none => exact ⟨ihgr, ihnr, ihmr⟩
            | some w =>
                dsimp only
                obtain ⟨hnw, hfw⟩ := ihV v hv w hfv
                refine ⟨?_, ?_, ?_⟩
                · intro w' hw'
                  rcases List.mem_cons.mp hw' with h0 | h0
                  · subst h0
                    exact hfw
                  · exact ihgr w' h0
                · show (noEmptyAll w && noEmptyItems (filterItems rest)) = true
                  rw [hnw, ihnr]
                  rfl
                · intro w' hw'
                  rcases List.mem_cons.mp hw' with h0 | h0
                  · subst h0
                    exact hnw
                  · exact ihmr w' h0

/- ## Claim C3: idempotence of the Filter Pass -/

/-- Claim C3: the Filter Pass is idempotent — a non-absent filter result is
a fixed point of the filter (so `filter (filter v) = filter v` with absence
propagating), including through the media-URL rewrite applied to
`fullsize`/`thumb`/`avatar` string values. -/
theorem claim_C3 (v w : Value) (h : filter_empty_and_noise v = some w) :
    filter_empty_and_noise w = some w :=
  ((filter_good (sizeOf v)).1 v le_rfl w h).2

/-- Witness for claim C3 at a concrete input that exercises the media
rewrite. -/
theorem claim_C3_witness :
    filter_empty_and_noise (.obj (.cons "fullsize" (.str lqUrl) .nil)) =
      some (.obj (.cons "fullsize" (.str lqUrl) .nil)) :=
  claim_C3 (.obj (.cons "fullsize" (.str hqUrl) .nil))
    (.obj (.cons "fullsize" (.str lqUrl) .nil)) rfl

/- ## Claim C4: no empty containers survive; absent values produce no node -/

/-- Claim C4: no mapping or sequence anywhere in a non-absent filter result
is empty, and a value whose filter result is absent contributes no
filesystem node at all — `save_json_as_tree` returns before creating
`targetPath`. -/
theorem claim_C4 (v : Value) (p : List String) (c d : Nat) (k : Option String) :
    (filter_empty_and_noise v = none → save_json_as_tree v p c d k = []) ∧
    (∀ w, filter_empty_and_noise v = some w → noEmptyAll w = true) := by
  constructor
  · intro hf
    unfold save_json_as_tree
    simp only [matNodesF, hf]
  · intro w hw
    exact ((filter_good (sizeOf v)).1 v le_rfl w hw).1

/-- Witness for claim C4: a mapping holding only a denylisted key filters
to absent and materializes to nothing; a surviving mapping has no empty
container. -/
theorem claim_C4_witness :
    save_json_as_tree (.obj (.cons "labels" (.int 1) .nil)) ["o"] 0 4 none = [] ∧
    noEmptyAll (.obj (.cons "a" (.str "x") .nil)) = true :=
  ⟨(claim_C4 (.obj (.cons "labels" (.int 1) .nil)) ["o"] 0 4 none).1 rfl,
   (claim_C4 (.obj (.cons "a" (.str "x") .nil)) ["o"] 0 4 none).2
     (.obj (.cons "a" (.str "x") .nil)) rfl⟩

/- ## Claim C9: falsy-but-non-null scalars are kept -/

/-- Claim C9: a non-denylisted key whose value is `false`, `0` or `0.0` is
kept unchanged by the Filter Pass, and in general the only values dropped
are those filtering to absent (null, and containers empty after filtering)
together with empty containers and blank strings. -/
theorem claim_C9 (k : String) (v : Value) (rest : Entries)
    (hk : should_filter_key k = false) :
    ((v = .bool false ∨ v = .int 0 ∨ v = .float "0.0") →
      filterEntries (.cons k v rest) = .cons k v (filterEntries rest)) ∧
    (∀ w, filter_empty_and_noise v = some w → isEmptyContainer w = false →
      isBlankStr w = false →
      ∃ w', filterEntries (.cons k v rest) = .cons k w' (filterEntries rest)) := by
  constructor
  · rintro (rfl | rfl | rfl) <;>
      · rw [filterEntries_cons, if_neg (by simp [hk])]
        rfl
  · intro w hw hec hbl
    rw [filterEntries_cons, if_neg (by simp [hk]), hw]
    dsimp only
    rw [if_neg (by simp [hec]), if_neg (by simp [hbl])]
    cases w with
    | str s =>
        by_cases hm : isMediaKey k
        · exact ⟨.str (modify_media_quality s), by dsimp only; rw [if_pos hm]⟩
        · exact ⟨.str s, by dsimp only; rw [if_neg hm]⟩
    | null => exact ⟨.null, rfl⟩
    | bool b => exact ⟨.bool b, rfl⟩
    | int i => exact ⟨.int i, rfl⟩
    | float f => exact ⟨.float f, rfl⟩
    | obj es => exact ⟨.obj es, rfl⟩
    | arr its => exact ⟨.arr its, rfl⟩

/-- Witness for claim C9: the pair `followers_count ↦ 0` survives filtering
unchanged. -/
theorem claim_C9_witness :
    filterEntries (.cons "followers_count" (.int 0) .nil) =
      .cons "followers_count" (.int 0) (filterEntries .nil) :=
  (claim_C9 "followers_count" (.int 0) .nil rfl).1 (Or.inr (Or.inl rfl))

/- ## Claim C6: uniqueness of directory paths -/

/-- Claim C6 counterexample: the sibling keys `a/b` and `a|b` both sanitize
to `a_b`, so two distinct recursive calls create the very same directory
`out/a_b` (the directory node appears twice) and write the same leaf file
path `out/a_b/a_b.int` — first with content `1`, then overwriting it with
`2`. -/
theorem claim_C6_cex :
    List.count ((1 : Nat), ONode.dir ["out", "a_b"])
      (save_json_as_tree exCollide ["out"] 0 5 none) = 2
    ∧ ((1 : Nat), ONode.file ["out", "a_b", "a_b.int"] "1") ∈
        save_json_as_tree exCollide ["out"] 0 5 none
    ∧ ((1 : Nat), ONode.file ["out", "a_b", "a_b.int"] "2") ∈
        save_json_as_tree exCollide ["out"] 0 5 none := by
  refine ⟨?_, ?_, ?_⟩ <;> decide

/-- Digits below ten are decimal digit characters, never an underscore. -/
theorem digitChar_lt_ten_ne_underscore : ∀ m, m < 10 → digitChar m ≠ '_' := by
  decide

/-- Every character of the fuelled digit expansion is a digit character of
a value below ten. -/
theorem natDigitsGo_chars : ∀ (f n : Nat), ∀ c ∈ natDigitsGo f n,
    ∃ m, m < 10 ∧ c = digitChar m := by
  intro f
  induction f with
  | zero =>
      intro n c hc
      simp [natDigitsGo] at hc
  | succ f ih =>
      intro n c hc
      rw [natDigitsGo] at hc
      by_cases h : n < 10
      · rw [if_pos h] at hc
        simp at hc
        exact ⟨n, h, hc⟩
      · rw [if_neg h] at hc
        rcases List.mem_append.mp hc with h2 | h2
        · exact ih (n / 10) c h2
        · simp at h2
          exact ⟨n % 10, Nat.mod_lt n (by omega), h2⟩

/-- No character of `pad4` is an underscore. -/
theorem pad4_no_underscore (n : Nat) : ∀ c ∈ (pad4 n).data, c ≠ '_' := by
  intro c hc
  have hc' : c ∈ List.replicate (4 - (natDigits n).length) '0' ++ natDigits n := hc
  rcases List.mem_append.mp hc' with h | h
  · rw [List.eq_of_mem_replicate h]
    decide
  · obtain ⟨m, hm, rfl⟩ := natDigitsGo_chars (n + 1) n c h
    exact digitChar_lt_ten_ne_underscore m hm

/-- Numeric value of a digit character. -/
def digitVal (c : Char) : Nat := c.toNat - 48

/-- Parse a digit list back into a number (most significant first). -/
def parseDigits (l : List Char) : Nat :=
  l.foldl (fun acc c => 10 * acc + digitVal c) 0

/-- Round trip of a digit character. -/
theorem digitVal_digitChar : ∀ m, m < 10 → digitVal (digitChar m) = m := by
  decide

/-- Parsing appends one digit at the end. -/
theorem parseDigits_append_one (xs : List Char) (c : Char) :
    parseDigits (xs ++ [c]) = 10 * parseDigits xs + digitVal c := by
  simp [parseDigits, List.foldl_append]

/-- The fuelled digit expansion parses back to its input. -/
theorem parseDigits_natDigitsGo : ∀ (f n : Nat), n < f →
    parseDigits (natDigitsGo f n) = n := by
  intro f
  induction f with
  | zero =>
      intro n hn
      exact absurd hn (Nat.not_lt_zero n)
  | succ f ih =>
      intro n hn
      rw [natDigitsGo]
      by_cases h : n < 10
      · rw [if_pos h]
        simp [parseDigits, digitVal_digitChar n h]
      · rw [if_neg h]
        have hdiv : n / 10 < f := by
          have := Nat.div_lt_self (by omega : 0 < n) (by omega : 1 < 10)
          omega
        rw [parseDigits_append_one, ih (n / 10) hdiv,
          digitVal_digitChar (n % 10) (Nat.mod_lt n (by omega))]
        omega

/-- Leading zeros do not change the parsed value. -/
theorem parseDigits_replicate_zero : ∀ (k : Nat) (xs : List Char),
    parseDigits (List.replicate k '0' ++ xs) = parseDigits xs := by
  intro k
  induction k with
  | zero => intro xs; rfl
  | succ k ih =>
      intro xs
      show parseDigits ('0' :: (List.replicate k '0' ++ xs)) = parseDigits xs
      show List.foldl _ ((fun acc c => 10 * acc + digitVal c) 0 '0')
        (List.replicate k '0' ++ xs) = parseDigits xs
      have h0 : (fun acc c => 10 * acc + digitVal c) 0 '0' = 0 := rfl
      rw [h0]
      exact ih xs

/-- `pad4` parses back to its input. -/
theorem parseDigits_pad4 (n : Nat) : parseDigits (pad4 n).data = n := by
  show parseDigits (List.replicate (4 - (natDigits n).length) '0' ++ natDigits n) = n
  rw [parseDigits_replicate_zero]
  exact parseDigits_natDigitsGo (n + 1) n (Nat.lt_succ_self n)

/-- Framing: two underscore-free blocks followed by an underscore split an
equal concatenation identically. -/
theorem underscore_frame : ∀ (a b s t : List Char),
    (∀ c ∈ a, c ≠ '_') → (∀ c ∈ b, c ≠ '_') →
    a ++ '_' :: s = b ++ '_' :: t → a = b := by
  intro a
  induction a with
  | nil =>
      intro b s t _ hb h
      cases b with
      | nil => rfl
      | cons c b' =>
          injection h with h1 _
          exact absurd h1.symm (hb c (by simp))
  | cons c a' ih =>
      intro b s t ha hb h
      cases b with
      | nil =>
          injection h with h1 _
          exact absurd h1 (ha c (by simp))
      | cons d b' =>
          injection h with h1 h2
          rw [h1, ih b' s t (fun x hx => ha x (by simp [hx]))
            (fun x hx => hb x (by simp [hx])) h2]

/-- Data of the underscore string. -/
theorem underscore_data : "_".data = ['_'] := rfl

/-- Every list-item name starts with the zero-padded index followed by an
underscore: each return of `get_meaningful_list_name` has the form
`pad4 index ++ "_" ++ rest`. -/
theorem listItemName_shape (v : Value) (i : Nat) :
    ∃ t : List Char, (get_meaningful_list_name v i).data = (pad4 i).data ++ '_' :: t := by
  cases v with
  | obj es =>
      simp only [get_meaningful_list_name]
      split
      case h_1 s hs =>
        repeat' split at hs
        all_goals first
          | exact Option.noConfusion hs
          | (injection hs with h
             subst h
             simp only [String.data_append, List.append_assoc, List.singleton_append,
               underscore_data]
             exact ⟨_, rfl⟩)
      case h_2 => exact ⟨"item".data, rfl⟩
  | null => exact ⟨"item".data, rfl⟩
  | bool b => exact ⟨"item".data, rfl⟩
  | int n => exact ⟨"item".data, rfl⟩
  | float f => exact ⟨"item".data, rfl⟩
  | str s => exact ⟨"item".data, rfl⟩
  | arr its => exact ⟨"item".data, rfl⟩

/-- Claim C6 as amended: sequence items always get pairwise distinct
sibling names — every `get_meaningful_list_name` result starts with the
zero-padded decimal index followed by the first underscore, the index
digits contain no underscore, and the digits parse back to the index — so
distinct indices give distinct names for arbitrary items. -/
theorem claim_C6_thm (v w : Value) (i j : Nat) (h : i ≠ j) :
    get_meaningful_list_name v i ≠ get_meaningful_list_name w j := by
  intro he
  obtain ⟨s, hs⟩ := listItemName_shape v i
  obtain ⟨t, ht⟩ := listItemName_shape w j
  have hd : (pad4 i).data ++ '_' :: s = (pad4 j).data ++ '_' :: t := by
    rw [← hs, ← ht, he]
  have hp : (pad4 i).data = (pad4 j).data :=
    underscore_frame _ _ _ _ (pad4_no_underscore i) (pad4_no_underscore j) hd
  have hij : i = j := by
    have h1 : parseDigits (pad4 i).data = parseDigits (pad4 j).data := by rw [hp]
    rwa [parseDigits_pad4, parseDigits_pad4] at h1
  exact h hij

/-- Witness for the amended claim C6 at concrete distinct indices. -/
theorem claim_C6_witness :
    get_meaningful_list_name (.str "x") 0 ≠ get_meaningful_list_name (.str "x") 1 :=
  claim_C6_thm (.str "x") (.str "x") 0 1 (by decide)

/- ## Claim C8: category grouping for data mappings -/

/-- Claim C8 counterexample: with `maxDepth = 2`, grouping the four
profile sub-mappings of `exData` makes each sub-key's value hit the depth
bound one level earlier — `k1` is written as the depth-capped leaf file
`out/data/profiles/k1.txt` holding inline JSON, whereas without grouping
the same sub-key would have materialized at depth 2 as a directory with a
`handle.str` file inside; the claim's predicted layout (the ungrouped one
plus the category segment) appears nowhere. -/
theorem claim_C8_cex :
    ((save_json_as_tree exData ["out"] 0 2 none).all
      (fun e => ONode.path e.2 != ["out", "data", "profiles", "k1", "handle.str"]
        && ONode.path e.2 != ["out", "data", "profiles", "k1"]) = true)
    ∧ ((2 : Nat), ONode.file ["out", "data", "profiles", "k1.txt"]
        "\x7b\"handle\": \"h1\"\x7d") ∈ save_json_as_tree exData ["out"] 0 2 none := by
  constructor
  · rfl
  · decide

/-- Round trip of the entries-list conversion. -/
theorem toList_entriesOfList : ∀ xs : List (String × Value),
    (entriesOfList xs).toList = xs := by
  intro xs
  induction xs with
  | nil => rfl
  | cons kv rest ih =>
      cases kv
      simp [entriesOfList, Entries.toList, ih]

/-- The categorizer never returns the tag `data`. -/
theorem categorize_ne_data (v : Value) : categorize_item_content v ≠ "data" := by
  cases v <;> simp only [categorize_item_content] <;> (repeat' split) <;> decide

/-- `addCat` preserves the bucket invariant. -/
theorem addCat_inv (P : String × Value → Prop)
    (cats : List (String × List (String × Value))) (cat : String)
    (kv : String × Value)
    (hinv : ∀ ce ∈ cats, ce.1 ≠ "data" ∧ ce.2 ≠ [] ∧ ∀ e ∈ ce.2, P e)
    (hcat : cat ≠ "data") (hkv : P kv) :
    ∀ ce ∈ addCat cats cat kv, ce.1 ≠ "data" ∧ ce.2 ≠ [] ∧ ∀ e ∈ ce.2, P e := by
  induction cats with
  | nil =>
      intro ce hce
      simp only [addCat, List.mem_singleton] at hce
      subst hce
      exact ⟨hcat, by simp, fun e he => by simp at he; subst he; exact hkv⟩
  | cons c0 rest ih =>
      intro ce hce
      rw [show addCat (c0 :: rest) cat kv =
        (if c0.1 == cat then (c0.1, c0.2 ++ [kv]) :: rest
        else c0 :: addCat rest cat kv) from by cases c0; rfl] at hce
      by_cases hc : c0.1 == cat
      · rw [if_pos hc] at hce
        rcases List.mem_cons.mp hce with h | h
        · subst h
          obtain ⟨h1, _, h3⟩ := hinv c0 (by simp)
          refine ⟨h1, by simp, ?_⟩
          intro e he
          rcases List.mem_append.mp he with h4 | h4
          · exact h3 e h4
          · simp at h4
            subst h4
            exact hkv
        · exact hinv ce (by simp [h])
      · rw [if_neg hc] at hce
        rcases List.mem_cons.mp hce with h | h
        · subst h
          exact hinv ce (by simp)
        · exact ih (fun ce' hce' => hinv ce' (by simp [hce'])) ce h

/-- Invariant of the grouping loop: every produced category bucket has a
non-`data` key, is nonempty, and contains only entries of the input (or of
the accumulator). -/
theorem groupCatsGo_inv (P : String × Value → Prop) :
    ∀ (xs : List (String × Value))
      (acc : List (String × List (String × Value)) × List (String × Value)),
      (∀ ce ∈ acc.1, ce.1 ≠ "data" ∧ ce.2 ≠ [] ∧ ∀ e ∈ ce.2, P e) →
      (∀ kv ∈ xs, P kv) →
      ∀ ce ∈ (groupCatsGo acc xs).1, ce.1 ≠ "data" ∧ ce.2 ≠ [] ∧ ∀ e ∈ ce.2, P e := by
  intro xs
  induction xs with
  | nil => intro acc hacc _; exact hacc
  | cons kv rest ih =>
      intro acc hacc hxs
      obtain ⟨k, v⟩ := kv
      cases v with
      | obj es =>
          rw [show groupCatsGo acc ((k, Value.obj es) :: rest) =
            (if categorize_item_content (.obj es) == "content" then
              groupCatsGo (acc.1, acc.2 ++ [(k, Value.obj es)]) rest
            else groupCatsGo
              (addCat acc.1 (categorize_item_content (.obj es)) (k, .obj es), acc.2)
              rest) from rfl]
          by_cases hcat : categorize_item_content (.obj es) == "content"
          · rw [if_pos hcat]
            exact ih (acc.1, acc.2 ++ [(k, .obj es)]) hacc
              (fun kv' hkv' => hxs kv' (by simp [hkv']))
          · rw [if_neg hcat]
            exact ih _
              (addCat_inv P acc.1 _ (k, .obj es) hacc
                (categorize_ne_data (.obj es)) (hxs (k, .obj es) (by simp)))
              (fun kv' hkv' => hxs kv' (by simp [hkv']))
      | null =>
          exact ih (acc.1, acc.2 ++ [(k, .null)]) hacc
            (fun kv' hkv' => hxs kv' (by simp [hkv']))
      | bool b =>
          exact ih (acc.1, acc.2 ++ [(k, .bool b)]) hacc
            (fun kv' hkv' => hxs kv' (by simp [hkv']))
      | int i =>
          exact ih (acc.1, acc.2 ++ [(k, .int i)]) hacc
            (fun kv' hkv' => hxs kv' (by simp [hkv']))
      | float f =>
          exact ih (acc.1, acc.2 ++ [(k, .float f)]) hacc
            (fun kv' hkv' => hxs kv' (by simp [hkv']))
      | str s =>
          exact ih (acc.1, acc.2 ++ [(k, .str s)]) hacc
            (fun kv' hkv' => hxs kv' (by simp [hkv']))
      | arr its =>
          exact ih (acc.1, acc.2 ++ [(k, .arr its)]) hacc
            (fun kv' hkv' => hxs kv' (by simp [hkv']))

/-- A self-filtered mapping has a self-filtered entry list. -/
theorem filter_obj_fix (l : Entries)
    (hfix : filter_empty_and_noise (.obj l) = some (.obj l)) :
    filterEntries l = l := by
  rw [filter_obj_eq] at hfix
  cases hfl : filterEntries l with
  | nil =>
      rw [hfl] at hfix
      exact Option.noConfusion hfix
  | cons k0 v0 r0 =>
      rw [hfl] at hfix
      have h2 : some (Value.obj (.cons k0 v0 r0)) = some (Value.obj l) := hfix
      simp only [Option.some.injEq, Value.obj.injEq] at h2
      exact h2

/-- The entries of a self-filtered mapping are good. -/
theorem good_of_obj_fix (l : Entries)
    (hfix : filter_empty_and_noise (.obj l) = some (.obj l)) : GoodEntries l := by
  obtain ⟨hg, _⟩ := (filter_good (sizeOf l)).2.1 l le_rfl
  rwa [filter_obj_fix l hfix] at hg

/-- A nonempty mapping built from good entries is a filter fixed point. -/
theorem filter_obj_of_good (xs : List (String × Value)) (hne : xs ≠ [])
    (hg : ∀ kv ∈ xs, GoodEntry kv.1 kv.2) :
    filter_empty_and_noise (.obj (entriesOfList xs)) =
      some (.obj (entriesOfList xs)) := by
  have hfe : filterEntries (entriesOfList xs) = entriesOfList xs :=
    filterEntries_of_good _ (fun kw hkw => hg kw (by rwa [toList_entriesOfList] at hkw))
  rw [filter_obj_eq, hfe]
  cases xs with
  | nil => exact absurd rfl hne
  | cons kv rest => cases kv; rfl

/-- Claim C8 as amended: the grouping is the same recursion applied one
level deeper — a self-filtered data-mapping with more than three entries
materializes as its own directory plus, for every category bucket, the same
`save_json_as_tree` applied to the bucket mapping under the category
segment at `currentDepth + 1`, and for every uncategorized key the ordinary
recursion at `currentDepth + 1`; consequently each grouped sub-key is
rematerialized by the same algorithm with the extra category segment but at
`currentDepth + 2` (one level deeper than without grouping, so the depth
cutoff fires one level earlier for grouped keys), while filtering is
unchanged. -/
theorem claim_C8_thm (l : Entries) (p : List String) (c d : Nat)
    (hfix : filter_empty_and_noise (.obj l) = some (.obj l))
    (hlen : 3 < l.length) (hcd : c < d) :
    (save_json_as_tree (.obj l) p c d (some "data") =
      (c, ONode.dir p) ::
      (((groupCats l.toList).1.map (fun ce =>
          save_json_as_tree (.obj (entriesOfList ce.2)) (p ++ [ce.1]) (c + 1) d
            (some ce.1))).flatten
        ++ ((groupCats l.toList).2.map (fun kv =>
          save_json_as_tree kv.2 (p ++ [sanitize_filename kv.1]) (c + 1) d
            (some kv.1))).flatten))
    ∧ (∀ ce ∈ (groupCats l.toList).1, c + 1 < d →
        save_json_as_tree (.obj (entriesOfList ce.2)) (p ++ [ce.1]) (c + 1) d
            (some ce.1) =
          (c + 1, ONode.dir (p ++ [ce.1])) ::
          ((ce.2.map (fun kv =>
            save_json_as_tree kv.2 (p ++ [ce.1, sanitize_filename kv.1]) (c + 2) d
              (some kv.1))).flatten)) := by
  constructor
  · have hfuel : d - c + 1 = (d - (c + 1) + 1) + 1 := by omega
    simp only [save_json_as_tree]
    rw [hfuel]
    simp only [matNodesF, hfix]
    rw [if_neg (by omega : ¬ d ≤ c)]
    rw [if_pos (by simp [hlen] :
      ((some "data" : Option String) == some "data"
        && decide (3 < Entries.length l)) = true)]
  · intro ce hce hc1d
    have hgood : GoodEntries l := good_of_obj_fix l hfix
    obtain ⟨hcne, hne2, hcgood⟩ := groupCatsGo_inv (fun kv => GoodEntry kv.1 kv.2)
      l.toList ([], []) (by simp) (fun kv hkv => hgood kv hkv) ce hce
    have hfixce := filter_obj_of_good ce.2 hne2 hcgood
    have hfuel : d - (c + 1) + 1 = (d - (c + 2) + 1) + 1 := by omega
    simp only [save_json_as_tree]
    rw [hfuel]
    simp only [matNodesF, hfixce]
    rw [if_neg (by omega : ¬ d ≤ c + 1)]
    rw [if_neg (by simp [hcne] :
      ¬ (((some ce.1 : Option String) == some "data"
        && decide (3 < Entries.length (entriesOfList ce.2))) = true))]
    rw [toList_entriesOfList]
    simp only [List.append_assoc, List.cons_append, List.nil_append]

/-- The inner data mapping of `exData`. -/
def exDataInner : Entries := entriesOfList [
  ("k1", .obj (entriesOfList [("handle", .str "h1")])),
  ("k2", .obj (entriesOfList [("handle", .str "h2")])),
  ("k3", .obj (entriesOfList [("handle", .str "h3")])),
  ("k4", .obj (entriesOfList [("handle", .str "h4")]))]

/-- Witness for the amended claim C8 at the concrete data mapping. -/
theorem claim_C8_witness :
    (save_json_as_tree (.obj exDataInner) ["out", "data"] 1 3 (some "data") =
      (1, ONode.dir ["out", "data"]) ::
      (((groupCats exDataInner.toList).1.map (fun ce =>
          save_json_as_tree (.obj (entriesOfList ce.2)) (["out", "data"] ++ [ce.1]) 2 3
            (some ce.1))).flatten
        ++ ((groupCats exDataInner.toList).2.map (fun kv =>
          save_json_as_tree kv.2 (["out", "data"] ++ [sanitize_filename kv.1]) 2 3
            (some kv.1))).flatten))
    ∧ (∀ ce ∈ (groupCats exDataInner.toList).1, 2 < 3 →
        save_json_as_tree (.obj (entriesOfList ce.2)) (["out", "data"] ++ [ce.1]) 2 3
            (some ce.1) =
          (2, ONode.dir (["out", "data"] ++ [ce.1])) ::
          ((ce.2.map (fun kv =>
            save_json_as_tree kv.2 (["out", "data"] ++ [ce.1, sanitize_filename kv.1]) 3 3
              (some kv.1))).flatten)) :=
  claim_C8_thm exDataInner ["out", "data"] 1 3 rfl (by decide) (by decide)
